import Mathlib

/-!
Verification of the price-data access layer of the react-native crypto app:
the retrying HTTP client, the price and chart fetch sanitization, the price,
chart and polling stores, and the alert engine.  Each TypeScript function is
shallow-embedded as an executable Lean definition; JavaScript numbers are
modelled by a type with explicit NaN and infinities where the code inspects
them, and by rationals where only arithmetic on validated values occurs.
-/

/-- Model of a JavaScript number: a finite rational, NaN, or an infinity. -/
inductive JSNum where
  | fin (q : ℚ)
  | nan
  | inf
  | ninf
deriving DecidableEq, Repr

/-- Model of an arbitrary JSON value where the code only distinguishes
numbers from non-numbers: a number, or anything else. -/
inductive JSVal where
  | num (n : JSNum)
  | notNum
deriving DecidableEq, Repr

namespace JSNum

/-- JavaScript isFinite. -/
def isFiniteB : JSNum → Bool
  | .fin _ => true
  | _ => false

/-- JavaScript isNaN. -/
def isNaNB : JSNum → Bool
  | .nan => true
  | _ => false

/-- JavaScript comparison `x > 0` (false for NaN, true for Infinity). -/
def gtZeroB : JSNum → Bool
  | .fin q => decide (0 < q)
  | .nan => false
  | .inf => true
  | .ninf => false

/-- JavaScript comparison `x >= 0` (false for NaN, true for Infinity). -/
def geZeroB : JSNum → Bool
  | .fin q => decide (0 ≤ q)
  | .nan => false
  | .inf => true
  | .ninf => false

/-- JavaScript comparison `x >= q` against a finite threshold. -/
def geB : JSNum → ℚ → Bool
  | .fin x, q => decide (q ≤ x)
  | .nan, _ => false
  | .inf, _ => true
  | .ninf, _ => false

/-- JavaScript comparison `x <= q` against a finite threshold. -/
def leB : JSNum → ℚ → Bool
  | .fin x, q => decide (x ≤ q)
  | .nan, _ => false
  | .inf, _ => false
  | .ninf, _ => true

/-- JavaScript comparison `x <= y` between two numbers (false when either is NaN). -/
def leNumB : JSNum → JSNum → Bool
  | .fin x, .fin y => decide (x ≤ y)
  | .nan, _ => false
  | _, .nan => false
  | .ninf, _ => true
  | _, .inf => true
  | .inf, .fin _ => false
  | .inf, .ninf => false
  | .fin _, .ninf => false

end JSNum

namespace JSVal

/-- JavaScript test `typeof v === "number"`. -/
def typeofNumberB : JSVal → Bool
  | .num _ => true
  | .notNum => false

/-- The numeric content of a value; only inspected behind a typeof guard,
so the value returned for a non-number is irrelevant. -/
def toNum : JSVal → JSNum
  | .num n => n
  | .notNum => .nan

/-- JavaScript isFinite applied to a raw value. -/
def isFiniteB (v : JSVal) : Bool := v.toNum.isFiniteB

/-- JavaScript isNaN applied to a raw value. -/
def isNaNB (v : JSVal) : Bool := v.toNum.isNaNB

/-- JavaScript comparison `v > 0` applied to a raw value. -/
def gtZeroB (v : JSVal) : Bool := v.toNum.gtZeroB

/-- JavaScript comparison `v >= 0` applied to a raw value. -/
def geZeroB (v : JSVal) : Bool := v.toNum.geZeroB

/-- JavaScript comparison `v >= q` applied to a raw value. -/
def geB (v : JSVal) (q : ℚ) : Bool := v.toNum.geB q

end JSVal

/-- Error taxonomy of src/lib/api/coingecko.ts (ApiErrorType). -/
inductive ApiErrorType where
  | NETWORK
  | TIMEOUT
  | RATE_LIMIT
  | NOT_FOUND
  | SERVER_ERROR
  | PARSE_ERROR
  | UNKNOWN
deriving DecidableEq, Repr

/-- Structured API error (ApiError in src/lib/types): kind plus retryable flag
(the human-readable message is irrelevant to the verified properties). -/
structure ApiError where
  type : ApiErrorType
  retryable : Bool
deriving DecidableEq, Repr

namespace Coingecko

/-- Retry configuration constant MAX_RETRIES of coingecko.ts. -/
def MAX_RETRIES : Nat := 3

/-- Retry configuration constant INITIAL_RETRY_DELAY of coingecko.ts. -/
def INITIAL_RETRY_DELAY : Nat := 1000

/-- Outcome of one underlying fetchWithTimeout try: either an HTTP response
with a status code, or a thrown exception whose parseError classification
carries the given retryable flag. -/
inductive FetchOutcome where
  | resp (status : Nat)
  | exc (retryable : Bool)
deriving DecidableEq, Repr

/-- Observable behaviour of one fetchWithRetry run: the returned response
status (none when an exception propagated out), the number of tries issued,
and the list of backoff delays slept, in order. -/
structure RetryRun where
  result : Option Nat
  tries : Nat
  delays : List Nat
deriving DecidableEq, Repr

/-- Loop body of fetchWithRetry, recursing on remaining fuel; the real run
starts at attempt 0 with fuel MAX_RETRIES + 1, so fuel never reaches 0 before
the loop terminates by itself. -/
def fetchWithRetryAux (outcomes : Nat → FetchOutcome) (maxRetries : Nat) :
    Nat → Nat → RetryRun
  | _, 0 => ⟨none, 0, []⟩
  | attempt, fuel + 1 =>
    match outcomes attempt with
    | .resp s =>
      if 400 ≤ s ∧ s < 500 ∧ s ≠ 429 then
        ⟨some s, 1, []⟩
      else if (s = 429 ∨ 500 ≤ s) ∧ attempt < maxRetries then
        let r := fetchWithRetryAux outcomes maxRetries (attempt + 1) fuel
        ⟨r.result, r.tries + 1, INITIAL_RETRY_DELAY * 2 ^ attempt :: r.delays⟩
      else
        ⟨some s, 1, []⟩
    | .exc retryable =>
      if retryable = false ∨ maxRetries ≤ attempt then
        ⟨none, 1, []⟩
      else
        let r := fetchWithRetryAux outcomes maxRetries (attempt + 1) fuel
        ⟨r.result, r.tries + 1, INITIAL_RETRY_DELAY * 2 ^ attempt :: r.delays⟩

/-- The fetchWithRetry function of coingecko.ts as called by the repository
(always with the default maxRetries = MAX_RETRIES = 3), applied to the
sequence of outcomes the underlying fetch produces attempt by attempt. -/
def fetchWithRetry (outcomes : Nat → FetchOutcome) : RetryRun :=
  fetchWithRetryAux outcomes MAX_RETRIES 0 (MAX_RETRIES + 1)

/-- An outcome on which the code retries (when attempts remain): an HTTP 429
or 5xx response, or an exception classified retryable. -/
def isRetryTrigger : FetchOutcome → Bool
  | .resp s => decide (s = 429 ∨ 500 ≤ s)
  | .exc retryable => retryable

end Coingecko

namespace Coingecko

theorem fetchWithRetryAux_succ (o : Nat → FetchOutcome) (m attempt f : Nat) :
    fetchWithRetryAux o m attempt (f + 1) =
      match o attempt with
      | .resp s =>
        if 400 ≤ s ∧ s < 500 ∧ s ≠ 429 then
          ⟨some s, 1, []⟩
        else if (s = 429 ∨ 500 ≤ s) ∧ attempt < m then
          ⟨(fetchWithRetryAux o m (attempt + 1) f).result,
            (fetchWithRetryAux o m (attempt + 1) f).tries + 1,
            INITIAL_RETRY_DELAY * 2 ^ attempt ::
              (fetchWithRetryAux o m (attempt + 1) f).delays⟩
        else
          ⟨some s, 1, []⟩
      | .exc retryable =>
        if retryable = false ∨ m ≤ attempt then
          ⟨none, 1, []⟩
        else
          ⟨(fetchWithRetryAux o m (attempt + 1) f).result,
            (fetchWithRetryAux o m (attempt + 1) f).tries + 1,
            INITIAL_RETRY_DELAY * 2 ^ attempt ::
              (fetchWithRetryAux o m (attempt + 1) f).delays⟩ := rfl

theorem fetchWithRetryAux_tries_le (o : Nat → FetchOutcome) (m : Nat) :
    ∀ fuel attempt, (fetchWithRetryAux o m attempt fuel).tries ≤ fuel := by
  intro fuel
  induction fuel with
  | zero => intro a; simp [fetchWithRetryAux]
  | succ f ih =>
    intro a
    rw [fetchWithRetryAux_succ]
    cases ho : o a with
    | resp s =>
      by_cases h1 : 400 ≤ s ∧ s < 500 ∧ s ≠ 429
      · simp [h1]
      · by_cases h2 : (s = 429 ∨ 500 ≤ s) ∧ a < m
        · simp only [h1, h2, if_false, if_true]
          exact Nat.succ_le_succ (ih (a + 1))
        · simp [h1, h2]
    | exc rt =>
      by_cases h1 : rt = false ∨ m ≤ a
      · simp [h1]
      · simp only [h1, if_false]
        exact Nat.succ_le_succ (ih (a + 1))

theorem fetchWithRetryAux_tries_pos (o : Nat → FetchOutcome) (m : Nat) :
    ∀ fuel attempt, 1 ≤ fuel → 1 ≤ (fetchWithRetryAux o m attempt fuel).tries := by
  intro fuel a hf
  match fuel, hf with
  | f + 1, _ =>
    rw [fetchWithRetryAux_succ]
    cases ho : o a with
    | resp s =>
      by_cases h1 : 400 ≤ s ∧ s < 500 ∧ s ≠ 429
      · simp [h1]
      · by_cases h2 : (s = 429 ∨ 500 ≤ s) ∧ a < m
        · simp [h1, h2]
        · simp [h1, h2]
    | exc rt =>
      by_cases h1 : rt = false ∨ m ≤ a
      · simp [h1]
      · simp [h1]

theorem fetchWithRetryAux_delays (o : Nat → FetchOutcome) (m : Nat) :
    ∀ fuel attempt, attempt + fuel = m + 1 →
      (fetchWithRetryAux o m attempt fuel).delays =
        (List.range ((fetchWithRetryAux o m attempt fuel).tries - 1)).map
          (fun i => INITIAL_RETRY_DELAY * 2 ^ (attempt + i)) := by
  intro fuel
  induction fuel with
  | zero => intro a h; simp [fetchWithRetryAux]
  | succ f ih =>
    intro a h
    rw [fetchWithRetryAux_succ]
    cases ho : o a with
    | resp s =>
      by_cases h1 : 400 ≤ s ∧ s < 500 ∧ s ≠ 429
      · simp [h1]
      · by_cases h2 : (s = 429 ∨ 500 ≤ s) ∧ a < m
        · simp only [if_neg h1, if_pos h2]
          have hf : 1 ≤ f := by omega
          have htp := fetchWithRetryAux_tries_pos o m f (a + 1) hf
          have hd := ih (a + 1) (by omega)
          obtain ⟨t, ht⟩ : ∃ t, (fetchWithRetryAux o m (a + 1) f).tries = t + 1 :=
            ⟨(fetchWithRetryAux o m (a + 1) f).tries - 1, by omega⟩
          rw [ht] at hd
          simp only [Nat.add_sub_cancel] at hd
          simp only [ht, Nat.add_sub_cancel]
          rw [List.range_succ_eq_map, List.map_cons, List.map_map]
          congr 1
          rw [hd]
          apply List.map_congr_left
          intro i _
          simp only [Function.comp_apply]
          have hx : a + 1 + i = a + (i + 1) := by omega
          simp [hx, Nat.succ_eq_add_one]
        · simp [h1, h2]
    | exc rt =>
      by_cases h1 : rt = false ∨ m ≤ a
      · simp [h1]
      · simp only [if_neg h1]
        have ham : a < m := by
          rcases Nat.lt_or_ge a m with hlt | hge
          · exact hlt
          · exact absurd (Or.inr hge) h1
        have hf : 1 ≤ f := by omega
        have htp := fetchWithRetryAux_tries_pos o m f (a + 1) hf
        have hd := ih (a + 1) (by omega)
        obtain ⟨t, ht⟩ : ∃ t, (fetchWithRetryAux o m (a + 1) f).tries = t + 1 :=
          ⟨(fetchWithRetryAux o m (a + 1) f).tries - 1, by omega⟩
        rw [ht] at hd
        simp only [Nat.add_sub_cancel] at hd
        simp only [ht, Nat.add_sub_cancel]
        rw [List.range_succ_eq_map, List.map_cons, List.map_map]
        congr 1
        rw [hd]
        apply List.map_congr_left
        intro i _
        simp only [Function.comp_apply]
        have hx : a + 1 + i = a + (i + 1) := by omega
        simp [hx, Nat.succ_eq_add_one]

end Coingecko

namespace Coingecko

theorem fetchWithRetryAux_triggers (o : Nat → FetchOutcome) (m : Nat) :
    ∀ fuel attempt k, k + 1 < (fetchWithRetryAux o m attempt fuel).tries →
      isRetryTrigger (o (attempt + k)) = true := by
  intro fuel
  induction fuel with
  | zero => intro a k hk; simp [fetchWithRetryAux] at hk
  | succ f ih =>
    intro a k hk
    rw [fetchWithRetryAux_succ] at hk
    cases ho : o a with
    | resp s =>
      rw [ho] at hk
      simp only [] at hk
      by_cases h1 : 400 ≤ s ∧ s < 500 ∧ s ≠ 429
      · rw [if_pos h1] at hk; simp only [] at hk; omega
      · by_cases h2 : (s = 429 ∨ 500 ≤ s) ∧ a < m
        · rw [if_neg h1, if_pos h2] at hk
          simp only at hk
          cases k with
          | zero =>
            simp only [Nat.add_zero, ho, isRetryTrigger]
            exact decide_eq_true h2.1
          | succ k =>
            have := ih (a + 1) k (by omega)
            have hidx : a + (k + 1) = a + 1 + k := by omega
            rw [hidx]
            exact this
        · rw [if_neg h1, if_neg h2] at hk; simp only [] at hk; omega
    | exc rt =>
      rw [ho] at hk
      simp only [] at hk
      by_cases h1 : rt = false ∨ m ≤ a
      · rw [if_pos h1] at hk; simp only [] at hk; omega
      · rw [if_neg h1] at hk
        simp only at hk
        cases k with
        | zero =>
          simp only [Nat.add_zero, ho, isRetryTrigger]
          cases rt with
          | false => exact absurd (Or.inl rfl) h1
          | true => rfl
        | succ k =>
          have := ih (a + 1) k (by omega)
          have hidx : a + (k + 1) = a + 1 + k := by omega
          rw [hidx]
          exact this

theorem fetchWithRetryAux_stop (o : Nat → FetchOutcome) (m : Nat) :
    ∀ fuel attempt, attempt + fuel = m + 1 →
      (fetchWithRetryAux o m attempt fuel).tries < fuel →
      isRetryTrigger (o (attempt + (fetchWithRetryAux o m attempt fuel).tries - 1))
        = false := by
  intro fuel
  induction fuel with
  | zero => intro a h hk; simp [fetchWithRetryAux] at hk
  | succ f ih =>
    intro a h hk
    rw [fetchWithRetryAux_succ] at hk ⊢
    cases ho : o a with
    | resp s =>
      rw [ho] at hk
      simp only [] at hk ⊢
      by_cases h1 : 400 ≤ s ∧ s < 500 ∧ s ≠ 429
      · rw [if_pos h1] at hk ⊢
        simp only [Nat.add_sub_cancel, ho, isRetryTrigger]
        simp only [decide_eq_false_iff_not]
        omega
      · by_cases h2 : (s = 429 ∨ 500 ≤ s) ∧ a < m
        · rw [if_neg h1, if_pos h2] at hk ⊢
          simp only at hk ⊢
          have hf : 1 ≤ f := by
            rcases Nat.lt_or_ge f 1 with hf0 | hf1
            · interval_cases f
              · simp [show a = m by omega] at h2
            · exact hf1
          have htp := fetchWithRetryAux_tries_pos o m f (a + 1) hf
          have hk2 : (fetchWithRetryAux o m (a + 1) f).tries < f := by omega
          have := ih (a + 1) (by omega) hk2
          have hidx : a + ((fetchWithRetryAux o m (a + 1) f).tries + 1) - 1 =
              a + 1 + (fetchWithRetryAux o m (a + 1) f).tries - 1 := by omega
          rw [hidx]
          exact this
        · rw [if_neg h1, if_neg h2] at hk ⊢
          simp only [Nat.add_sub_cancel, ho, isRetryTrigger] at hk ⊢
          simp only [decide_eq_false_iff_not]
          intro hs
          have ham : a < m := by omega
          exact h2 ⟨hs, ham⟩
    | exc rt =>
      rw [ho] at hk
      simp only [] at hk ⊢
      by_cases h1 : rt = false ∨ m ≤ a
      · rw [if_pos h1] at hk ⊢
        simp only [] at hk
        simp only [Nat.add_sub_cancel, ho, isRetryTrigger]
        cases rt with
        | false => rfl
        | true =>
          rcases h1 with h1 | h1
          · exact absurd h1 (by simp)
          · omega
      · rw [if_neg h1] at hk ⊢
        simp only at hk ⊢
        have ham : a < m := by
          rcases Nat.lt_or_ge a m with hlt | hge
          · exact hlt
          · exact absurd (Or.inr hge) h1
        have hf : 1 ≤ f := by omega
        have htp := fetchWithRetryAux_tries_pos o m f (a + 1) hf
        have hk2 : (fetchWithRetryAux o m (a + 1) f).tries < f := by omega
        have := ih (a + 1) (by omega) hk2
        have hidx : a + ((fetchWithRetryAux o m (a + 1) f).tries + 1) - 1 =
            a + 1 + (fetchWithRetryAux o m (a + 1) f).tries - 1 := by omega
        rw [hidx]
        exact this

theorem fetchWithRetryAux_result_resp (o : Nat → FetchOutcome) (m : Nat) :
    ∀ fuel attempt, attempt + fuel = m + 1 → 1 ≤ fuel → ∀ s,
      o (attempt + (fetchWithRetryAux o m attempt fuel).tries - 1) =
        FetchOutcome.resp s →
      (fetchWithRetryAux o m attempt fuel).result = some s := by
  intro fuel
  induction fuel with
  | zero => intro a h hf1 s hs; omega
  | succ f ih =>
    intro a h hf1 s hs
    rw [fetchWithRetryAux_succ] at hs ⊢
    cases ho : o a with
    | resp s0 =>
      rw [ho] at hs
      simp only [] at hs ⊢
      by_cases h1 : 400 ≤ s0 ∧ s0 < 500 ∧ s0 ≠ 429
      · rw [if_pos h1] at hs ⊢
        simp only [Nat.add_sub_cancel, ho] at hs
        simp only [FetchOutcome.resp.injEq] at hs
        rw [hs]
      · by_cases h2 : (s0 = 429 ∨ 500 ≤ s0) ∧ a < m
        · rw [if_neg h1, if_pos h2] at hs ⊢
          simp only at hs ⊢
          have hf : 1 ≤ f := by omega
          have htp := fetchWithRetryAux_tries_pos o m f (a + 1) hf
          have hidx : a + ((fetchWithRetryAux o m (a + 1) f).tries + 1) - 1 =
              a + 1 + (fetchWithRetryAux o m (a + 1) f).tries - 1 := by omega
          rw [hidx] at hs
          exact ih (a + 1) (by omega) hf s hs
        · rw [if_neg h1, if_neg h2] at hs ⊢
          simp only [Nat.add_sub_cancel, ho] at hs
          simp only [FetchOutcome.resp.injEq] at hs
          rw [hs]
    | exc rt =>
      rw [ho] at hs
      simp only [] at hs ⊢
      by_cases h1 : rt = false ∨ m ≤ a
      · rw [if_pos h1] at hs
        simp only [Nat.add_sub_cancel, ho] at hs
        exact absurd hs (by simp)
      · rw [if_neg h1] at hs ⊢
        simp only at hs ⊢
        have ham : a < m := by
          rcases Nat.lt_or_ge a m with hlt | hge
          · exact hlt
          · exact absurd (Or.inr hge) h1
        have hf : 1 ≤ f := by omega
        have htp := fetchWithRetryAux_tries_pos o m f (a + 1) hf
        have hidx : a + ((fetchWithRetryAux o m (a + 1) f).tries + 1) - 1 =
            a + 1 + (fetchWithRetryAux o m (a + 1) f).tries - 1 := by omega
        rw [hidx] at hs
        exact ih (a + 1) (by omega) hf s hs

end Coingecko

namespace Coingecko

/-- C1: for every sequence of responses/exceptions, fetchWithRetry makes
between 1 and 4 tries; the delay before the retry after 0-based attempt k is
1000 * 2 ^ k milliseconds; every non-final try ended in HTTP 429, HTTP 5xx or
a retryable exception (so nothing else is retried); when it stops before
exhausting its 4 tries the last outcome was not such a trigger (in particular
a 4xx other than 429 ends the loop at once, returning that response); and the
response of the final try, when one exists, is returned. -/
theorem fetchWithRetry_spec (outcomes : Nat → FetchOutcome) :
    1 ≤ (fetchWithRetry outcomes).tries ∧
    (fetchWithRetry outcomes).tries ≤ 4 ∧
    (fetchWithRetry outcomes).delays =
      (List.range ((fetchWithRetry outcomes).tries - 1)).map
        (fun i => 1000 * 2 ^ i) ∧
    (∀ k, k + 1 < (fetchWithRetry outcomes).tries →
      isRetryTrigger (outcomes k) = true) ∧
    ((fetchWithRetry outcomes).tries < 4 →
      isRetryTrigger (outcomes ((fetchWithRetry outcomes).tries - 1)) = false) ∧
    (∀ s, outcomes ((fetchWithRetry outcomes).tries - 1) = FetchOutcome.resp s →
      (fetchWithRetry outcomes).result = some s) ∧
    (∀ s, 400 ≤ s → s < 500 → s ≠ 429 → outcomes 0 = FetchOutcome.resp s →
      fetchWithRetry outcomes = ⟨some s, 1, []⟩) := by
  refine ⟨?_, ?_, ?_, ?_, ?_, ?_, ?_⟩
  · exact fetchWithRetryAux_tries_pos outcomes MAX_RETRIES (MAX_RETRIES + 1) 0
      (by norm_num)
  · have h := fetchWithRetryAux_tries_le outcomes MAX_RETRIES (MAX_RETRIES + 1) 0
    simpa [MAX_RETRIES] using h
  · have h := fetchWithRetryAux_delays outcomes MAX_RETRIES (MAX_RETRIES + 1) 0
      (by simp)
    rw [fetchWithRetry, h]
    apply List.map_congr_left
    intro i _
    simp [INITIAL_RETRY_DELAY]
  · intro k hk
    have h := fetchWithRetryAux_triggers outcomes MAX_RETRIES (MAX_RETRIES + 1) 0 k hk
    simpa using h
  · intro hlt
    have h := fetchWithRetryAux_stop outcomes MAX_RETRIES (MAX_RETRIES + 1) 0
      (by simp) (by simpa [MAX_RETRIES] using hlt)
    simpa using h
  · intro s hs
    exact fetchWithRetryAux_result_resp outcomes MAX_RETRIES (MAX_RETRIES + 1) 0
      (by simp) (by norm_num) s (by simpa using hs)
  · intro s h4a h4b h4c h0
    show fetchWithRetryAux outcomes MAX_RETRIES 0 (MAX_RETRIES + 1) = ⟨some s, 1, []⟩
    rw [show MAX_RETRIES + 1 = 3 + 1 from rfl, fetchWithRetryAux_succ, h0]
    simp only []
    rw [if_pos ⟨h4a, h4b, h4c⟩]

/-- Witness for fetchWithRetry_spec at concrete outcome sequences: a constant
404 returns at once with that response, and a constant retryable exception
still makes at most 4 tries. -/
theorem fetchWithRetry_spec_witness :
    (fetchWithRetry (fun _ => FetchOutcome.resp 404)).result = some 404 ∧
    (fetchWithRetry (fun _ => FetchOutcome.resp 404)).tries = 1 ∧
    (fetchWithRetry (fun _ => FetchOutcome.exc true)).tries ≤ 4 := by
  have h1 := (fetchWithRetry_spec (fun _ => FetchOutcome.resp 404)).2.2.2.2.2.2 404
    (by norm_num) (by norm_num) (by norm_num) rfl
  have h2 := (fetchWithRetry_spec (fun _ => FetchOutcome.exc true)).2.1
  exact ⟨by rw [h1], by rw [h1], h2⟩

end Coingecko

namespace Coingecko

/-- Chart timeframe enum (ChartTimeframe in src/lib/types). -/
inductive ChartTimeframe where
  | h1
  | h24
  | d7
  | d30
  | d90
  | y1
deriving DecidableEq, Repr

/-- Sanitized chart point (ChartDataPoint / VolumeDataPoint in src/lib/types).
The code copies the raw pair fields after the filter, so the timestamp keeps
whatever number the payload carried, including NaN or an infinity. -/
structure ChartDataPoint where
  timestamp : JSNum
  value : JSNum
deriving DecidableEq, Repr

/-- Payload of a successful chart fetch (ChartResult in src/lib/types). -/
structure ChartResult where
  prices : List ChartDataPoint
  volumes : List ChartDataPoint
deriving DecidableEq, Repr

/-- Parsed market_chart response body: the prices array (present and an
array, or the whole body is rejected) and the optional total_volumes array;
each element is a raw [timestamp, value] pair of arbitrary JSON values. -/
structure MarketChartBody where
  prices : List (JSVal × JSVal)
  total_volumes : Option (List (JSVal × JSVal))
deriving DecidableEq, Repr

/-- Price-point filter of fetchChartDataWithVolume: both components of number
type, value finite, non-NaN and strictly positive; nothing is checked about
the timestamp beyond its type. -/
def pricePointFilter (p : JSVal × JSVal) : Bool :=
  p.1.typeofNumberB && p.2.typeofNumberB && p.2.isFiniteB && !p.2.isNaNB &&
    p.2.gtZeroB

/-- Volume-point filter of fetchChartDataWithVolume: like the price filter
but allowing value = 0. -/
def volumePointFilter (p : JSVal × JSVal) : Bool :=
  p.1.typeofNumberB && p.2.typeofNumberB && p.2.isFiniteB && !p.2.isNaNB &&
    p.2.geZeroB

/-- Mapping step of the sanitization pipeline: copy the two components. -/
def toChartPoint (p : JSVal × JSVal) : ChartDataPoint :=
  ⟨p.1.toNum, p.2.toNum⟩

/-- Success-path transformation of fetchChartDataWithVolume in coingecko.ts,
from the parsed response body (none models a missing or non-array prices
field) to the result; now is the Date.now() value used by the 1h filter. -/
def fetchChartDataWithVolume (timeframe : ChartTimeframe) (now : ℚ)
    (body : Option MarketChartBody) : Except ApiErrorType ChartResult :=
  match body with
  | none => .error .PARSE_ERROR
  | some data =>
    let oneHourAgo := now - 60 * 60 * 1000
    let pricesData :=
      if timeframe = .h1 then
        data.prices.filter (fun p => p.1.geB oneHourAgo)
      else data.prices
    let volumesData :=
      if timeframe = .h1 then
        (data.total_volumes.getD []).filter (fun p => p.1.geB oneHourAgo)
      else data.total_volumes.getD []
    let prices := (pricesData.filter pricePointFilter).map toChartPoint
    let volumes := (volumesData.filter volumePointFilter).map toChartPoint
    if prices.isEmpty then .error .PARSE_ERROR
    else .ok ⟨prices, volumes⟩

/-- Non-decreasing timestamps under the JavaScript less-or-equal, the order
the specification asserts for sanitized series. -/
def sortedByTimestamp (l : List ChartDataPoint) : Prop :=
  List.Pairwise (fun a b => a.timestamp.leNumB b.timestamp = true) l

instance (l : List ChartDataPoint) : Decidable (sortedByTimestamp l) :=
  List.instDecidablePairwise l

end Coingecko

namespace Coingecko

/-- Filtering and then copying raw pairs into chart points preserves
pairwise timestamp order. -/
theorem pairwise_filter_map_toChartPoint (l : List (JSVal × JSVal))
    (flt : JSVal × JSVal → Bool)
    (h : List.Pairwise (fun p q : JSVal × JSVal =>
      p.1.toNum.leNumB q.1.toNum = true) l) :
    sortedByTimestamp ((l.filter flt).map toChartPoint) :=
  List.Pairwise.map toChartPoint (fun _ _ hab => hab)
    (List.Pairwise.sublist (List.filter_sublist l) h)

/-- C2 counterexample: a well-formed payload whose two points arrive in
descending timestamp order is returned unsorted (the code never sorts), and a
point whose timestamp is NaN — of number type but not finite — survives the
filter; both contradict the claimed sanitization guarantees. -/
theorem fetchChartDataWithVolume_counterexample :
    fetchChartDataWithVolume .h24 0
        (some ⟨[(.num (.fin 2), .num (.fin 1)), (.num (.fin 1), .num (.fin 1))],
          none⟩) =
      .ok ⟨[⟨.fin 2, .fin 1⟩, ⟨.fin 1, .fin 1⟩], []⟩ ∧
    ¬ sortedByTimestamp [⟨.fin 2, .fin 1⟩, ⟨.fin 1, .fin 1⟩] ∧
    fetchChartDataWithVolume .h24 0
        (some ⟨[(.num .nan, .num (.fin 5))], none⟩) =
      .ok ⟨[⟨.nan, .fin 5⟩], []⟩ ∧
    JSNum.nan.isFiniteB = false := by
  refine ⟨rfl, by decide, rfl, rfl⟩

/-- C2 (amended): every sanitized value is a finite non-NaN number, positive
for price points and non-negative for volume points, and the sanitized series
preserve the order of the raw payload — in particular they are sorted ascending by
timestamp whenever the raw arrays are; the raw timestamp however is only
checked to be of number type, so a NaN or infinite timestamp is kept. -/
theorem fetchChartDataWithVolume_sanitize_spec (tf : ChartTimeframe) (now : ℚ)
    (body : Option MarketChartBody) (res : ChartResult)
    (h : fetchChartDataWithVolume tf now body = .ok res) :
    res.prices ≠ [] ∧
    (∀ p ∈ res.prices,
      p.value.isFiniteB = true ∧ p.value.isNaNB = false ∧
        p.value.gtZeroB = true) ∧
    (∀ p ∈ res.volumes,
      p.value.isFiniteB = true ∧ p.value.isNaNB = false ∧
        p.value.geZeroB = true) ∧
    (∀ data, body = some data →
      (List.Pairwise (fun p q : JSVal × JSVal =>
          p.1.toNum.leNumB q.1.toNum = true) data.prices →
        sortedByTimestamp res.prices) ∧
      (List.Pairwise (fun p q : JSVal × JSVal =>
          p.1.toNum.leNumB q.1.toNum = true) (data.total_volumes.getD []) →
        sortedByTimestamp res.volumes)) := by
  cases body with
  | none => exact absurd h (by simp [fetchChartDataWithVolume])
  | some data =>
    rw [fetchChartDataWithVolume] at h
    by_cases he :
        (((if tf = .h1 then
            data.prices.filter (fun p => p.1.geB (now - 60 * 60 * 1000))
          else data.prices).filter pricePointFilter).map toChartPoint).isEmpty
    · rw [if_pos he] at h
      exact absurd h (by simp)
    · rw [if_neg he] at h
      have hres : res =
          ⟨((if tf = .h1 then
              data.prices.filter (fun p => p.1.geB (now - 60 * 60 * 1000))
            else data.prices).filter pricePointFilter).map toChartPoint,
           ((if tf = .h1 then
              (data.total_volumes.getD []).filter
                (fun p => p.1.geB (now - 60 * 60 * 1000))
            else data.total_volumes.getD []).filter volumePointFilter).map
              toChartPoint⟩ := by
        cases h
        rfl
      subst hres
      refine ⟨?_, ?_, ?_, ?_⟩
      · intro hnil
        simp only [] at hnil
        rw [hnil] at he
        exact he rfl
      · intro p hp
        simp only [List.mem_map] at hp
        obtain ⟨q, hq, hqp⟩ := hp
        have hf := List.of_mem_filter hq
        rw [pricePointFilter] at hf
        simp only [Bool.and_eq_true, Bool.not_eq_true'] at hf
        subst hqp
        exact ⟨hf.1.1.2, hf.1.2, hf.2⟩
      · intro p hp
        simp only [List.mem_map] at hp
        obtain ⟨q, hq, hqp⟩ := hp
        have hf := List.of_mem_filter hq
        rw [volumePointFilter] at hf
        simp only [Bool.and_eq_true, Bool.not_eq_true'] at hf
        subst hqp
        exact ⟨hf.1.1.2, hf.1.2, hf.2⟩
      · intro d hd
        cases hd
        constructor
        · intro hraw
          have h1 : List.Pairwise (fun p q : JSVal × JSVal =>
              p.1.toNum.leNumB q.1.toNum = true)
              (if tf = .h1 then
                data.prices.filter (fun p => p.1.geB (now - 60 * 60 * 1000))
              else data.prices) := by
            by_cases ht : tf = .h1
            · rw [if_pos ht]
              exact List.Pairwise.sublist (List.filter_sublist _) hraw
            · rw [if_neg ht]; exact hraw
          exact pairwise_filter_map_toChartPoint _ pricePointFilter h1
        · intro hraw
          have h1 : List.Pairwise (fun p q : JSVal × JSVal =>
              p.1.toNum.leNumB q.1.toNum = true)
              (if tf = .h1 then
                (data.total_volumes.getD []).filter
                  (fun p => p.1.geB (now - 60 * 60 * 1000))
              else data.total_volumes.getD []) := by
            by_cases ht : tf = .h1
            · rw [if_pos ht]
              exact List.Pairwise.sublist (List.filter_sublist _) hraw
            · rw [if_neg ht]; exact hraw
          exact pairwise_filter_map_toChartPoint _ volumePointFilter h1

/-- Witness for fetchChartDataWithVolume_sanitize_spec on a concrete
well-formed payload. -/
theorem fetchChartDataWithVolume_sanitize_spec_witness :
    (ChartResult.mk [⟨.fin 1, .fin 2⟩] []).prices ≠ [] :=
  (fetchChartDataWithVolume_sanitize_spec .h24 0
    (some ⟨[(.num (.fin 1), .num (.fin 2))], none⟩)
    ⟨[⟨.fin 1, .fin 2⟩], []⟩ rfl).1

end Coingecko

namespace Coingecko

/-- One entry of the simple/price response body (CoinGeckoSimplePriceResponse
values): the three optional numeric fields the code reads. -/
structure CGPriceInfo where
  usd : Option JSNum
  usd_24h_change : Option JSNum
  usd_market_cap : Option JSNum
deriving DecidableEq, Repr

/-- Normalized price entry (PriceData in src/lib/types). -/
structure PriceData where
  cryptoId : String
  price : JSNum
  priceChange24h : JSNum
  marketCap : JSNum
  lastUpdated : ℤ
deriving DecidableEq, Repr

/-- Validation filter of fetchPrices: price strictly positive, finite and
non-NaN. -/
def priceValidB (p : PriceData) : Bool :=
  p.price.gtZeroB && p.price.isFiniteB && !p.price.isNaNB

/-- Success-path transformation of fetchPrices in coingecko.ts from the
parsed response body (none models a null or non-object body; the entry list
is Object.entries of the body) to the result; now is the Date.now() stamp. -/
def fetchPrices (now : ℤ) (body : Option (List (String × CGPriceInfo))) :
    Except ApiErrorType (List PriceData) :=
  match body with
  | none => .error .PARSE_ERROR
  | some entries =>
    if entries.isEmpty then .error .PARSE_ERROR
    else
      let prices := entries.map (fun e =>
        PriceData.mk e.1 (e.2.usd.getD (.fin 0))
          (e.2.usd_24h_change.getD (.fin 0))
          (e.2.usd_market_cap.getD (.fin 0)) now)
      let validPrices := prices.filter priceValidB
      if validPrices.isEmpty then .error .PARSE_ERROR
      else .ok validPrices

/-- An entry of the response body counts as valid when the price it yields
(its usd field, defaulted to 0) is positive, finite and non-NaN. -/
def entryValidB (e : String × CGPriceInfo) : Bool :=
  (e.2.usd.getD (.fin 0)).gtZeroB && (e.2.usd.getD (.fin 0)).isFiniteB &&
    !(e.2.usd.getD (.fin 0)).isNaNB

/-- The valid entries remaining in a response body; an absent or non-object
body contributes none. -/
def validEntries (body : Option (List (String × CGPriceInfo))) :
    List (String × CGPriceInfo) :=
  (body.getD []).filter entryValidB

/-- C3: fetchPrices on success returns a non-empty list whose every entry has
a price that is positive, finite and non-NaN; and whenever zero valid entries
remain — including an empty or malformed response body — it fails with
PARSE_ERROR. -/
theorem fetchPrices_spec (now : ℤ)
    (body : Option (List (String × CGPriceInfo))) :
    (∀ l, fetchPrices now body = .ok l →
      l ≠ [] ∧ ∀ p ∈ l, p.price.gtZeroB = true ∧ p.price.isFiniteB = true ∧
        p.price.isNaNB = false) ∧
    (validEntries body = [] → fetchPrices now body = .error .PARSE_ERROR) := by
  cases body with
  | none => exact ⟨fun l hl => absurd hl (by simp [fetchPrices]), fun _ => rfl⟩
  | some entries =>
    by_cases hemp : entries.isEmpty
    · refine ⟨fun l hl => absurd hl ?_, fun _ => ?_⟩
      · rw [fetchPrices, if_pos hemp]
        simp
      · rw [fetchPrices, if_pos hemp]
    · have hfm : (entries.map (fun e =>
          PriceData.mk e.1 (e.2.usd.getD (.fin 0))
            (e.2.usd_24h_change.getD (.fin 0))
            (e.2.usd_market_cap.getD (.fin 0)) now)).filter priceValidB =
          (entries.filter entryValidB).map (fun e =>
            PriceData.mk e.1 (e.2.usd.getD (.fin 0))
              (e.2.usd_24h_change.getD (.fin 0))
              (e.2.usd_market_cap.getD (.fin 0)) now) := by
        rw [List.filter_map]
        rfl
      constructor
      · intro l hl
        rw [fetchPrices, if_neg hemp] at hl
        by_cases hv : ((entries.map (fun e =>
            PriceData.mk e.1 (e.2.usd.getD (.fin 0))
              (e.2.usd_24h_change.getD (.fin 0))
              (e.2.usd_market_cap.getD (.fin 0)) now)).filter
              priceValidB).isEmpty
        · rw [if_pos hv] at hl
          exact absurd hl (by simp)
        · rw [if_neg hv] at hl
          simp only [Except.ok.injEq] at hl
          subst hl
          constructor
          · intro hnil
            rw [hnil] at hv
            exact hv rfl
          · intro p hp
            have hf := List.of_mem_filter hp
            rw [priceValidB] at hf
            simp only [Bool.and_eq_true, Bool.not_eq_true'] at hf
            exact ⟨hf.1.1, hf.1.2, hf.2⟩
      · intro hve
        rw [validEntries] at hve
        simp only [Option.getD_some] at hve
        rw [fetchPrices, if_neg hemp]
        rw [if_pos]
        rw [hfm, hve]
        rfl

/-- Witness for fetchPrices_spec: a body with one valid entry succeeds with
that entry, and a null body yields PARSE_ERROR. -/
theorem fetchPrices_spec_witness :
    fetchPrices 0 none = .error .PARSE_ERROR ∧
    ([PriceData.mk "bitcoin" (.fin 50000) (.fin 5) (.fin 100) 0] :
      List PriceData) ≠ [] := by
  refine ⟨(fetchPrices_spec 0 none).2 rfl, ?_⟩
  exact ((fetchPrices_spec 0
    (some [("bitcoin", ⟨some (.fin 50000), some (.fin 5), some (.fin 100)⟩)])).1
    [PriceData.mk "bitcoin" (.fin 50000) (.fin 5) (.fin 100) 0] rfl).1

end Coingecko

namespace AlertStore

/-- Alert direction (the type field of Alert: "above" or "below"). -/
inductive AlertDirection where
  | above
  | below
deriving DecidableEq, Repr

/-- A user-configured threshold alert (Alert in src/lib/types). -/
structure Alert where
  id : String
  cryptoId : String
  type : AlertDirection
  threshold : ℚ
  createdAt : ℤ
deriving DecidableEq, Repr

/-- A fired alert record (TriggeredAlert in src/lib/types). -/
structure TriggeredAlert where
  id : String
  alert : Alert
  triggeredPrice : JSNum
  triggeredAt : ℤ
  viewed : Bool
deriving DecidableEq, Repr

/-- State of the alert store. -/
structure AlertState where
  activeAlerts : List Alert
  triggeredAlerts : List TriggeredAlert
deriving DecidableEq, Repr

/-- Input of addAlert (Omit of Alert without id and createdAt). -/
structure AlertInput where
  cryptoId : String
  type : AlertDirection
  threshold : ℚ
deriving DecidableEq, Repr

/-- Updates accepted by updateAlert (Partial Pick of type and threshold). -/
structure AlertUpdates where
  type : Option AlertDirection
  threshold : Option ℚ
deriving DecidableEq, Repr

/-- Trigger condition of evaluateAlerts: above fires on price >= threshold,
below on price <= threshold, JavaScript comparisons (so never on NaN). -/
def trigCondB (a : Alert) (price : JSNum) : Bool :=
  match a.type with
  | .above => price.geB a.threshold
  | .below => price.leB a.threshold

/-- Whether an alert fires against a price map: its instrument must have an
entry and the trigger condition must hold on the price of that entry. -/
def firedB (prices : List (String × Coingecko.PriceData)) (a : Alert) : Bool :=
  match prices.lookup a.cryptoId with
  | some pd => trigCondB a pd.price
  | none => false

/-- The fired alerts paired with their triggering price, in iteration order,
as collected by the forEach loop of evaluateAlerts. -/
def firedWithPrice (prices : List (String × Coingecko.PriceData)) :
    List Alert → List (Alert × JSNum)
  | [] => []
  | a :: rest =>
    match prices.lookup a.cryptoId with
    | none => firedWithPrice prices rest
    | some pd =>
      if trigCondB a pd.price then
        (a, pd.price) :: firedWithPrice prices rest
      else firedWithPrice prices rest

/-- Builds the newTriggered records in iteration order, drawing one generated
id per record from the supply, as the forEach loop calls generateId. -/
def attachIds (idGen : Nat → String) (now : ℤ) :
    Nat → List (Alert × JSNum) → List TriggeredAlert
  | _, [] => []
  | k, ap :: rest =>
    TriggeredAlert.mk (idGen k) ap.1 ap.2 now false ::
      attachIds idGen now (k + 1) rest

/-- The evaluateAlerts action of the alert store: collect fired alerts, then
atomically remove them from the active set (by id membership) and prepend the
new TriggeredAlert records to the triggered list. -/
def evaluateAlerts (s : AlertState)
    (prices : List (String × Coingecko.PriceData)) (idGen : Nat → String)
    (now : ℤ) : AlertState :=
  let fired := firedWithPrice prices s.activeAlerts
  let triggeredIds := fired.map (fun ap => ap.1.id)
  let newTriggered := attachIds idGen now 0 fired
  if triggeredIds.isEmpty then s
  else
    { activeAlerts :=
        s.activeAlerts.filter (fun a => !(triggeredIds.contains a.id)),
      triggeredAlerts := newTriggered ++ s.triggeredAlerts }

/-- The addAlert action: remove any existing alert for the same crypto, then
append the new alert built from the input, the generated id and the
creation stamp. -/
def addAlert (s : AlertState) (input : AlertInput) (id : String) (now : ℤ) :
    AlertState :=
  { s with activeAlerts :=
      s.activeAlerts.filter (fun a => !(a.cryptoId == input.cryptoId)) ++
        [Alert.mk id input.cryptoId input.type input.threshold now] }

/-- The removeAlert action. -/
def removeAlert (s : AlertState) (alertId : String) : AlertState :=
  { s with activeAlerts := s.activeAlerts.filter (fun a => !(a.id == alertId)) }

/-- The updateAlert action: merge the defined update fields into the alert
with the given id; cryptoId and id are never touched. -/
def updateAlert (s : AlertState) (alertId : String) (u : AlertUpdates) :
    AlertState :=
  { s with activeAlerts := s.activeAlerts.map (fun a =>
      if a.id == alertId then
        { a with type := u.type.getD a.type,
                 threshold := u.threshold.getD a.threshold }
      else a) }

/-- The markAllAsViewed action. -/
def markAllAsViewed (s : AlertState) : AlertState :=
  { s with triggeredAlerts :=
      s.triggeredAlerts.map (fun t => { t with viewed := true }) }

/-- The clearTriggeredAlerts action. -/
def clearTriggeredAlerts (s : AlertState) : AlertState :=
  { s with triggeredAlerts := [] }

/-- States of the alert store reachable from the initial empty state by any
sequence of store actions. -/
inductive Reachable : AlertState → Prop
  | init : Reachable ⟨[], []⟩
  | add (s : AlertState) (input : AlertInput) (id : String) (now : ℤ) :
      Reachable s → Reachable (addAlert s input id now)
  | remove (s : AlertState) (alertId : String) :
      Reachable s → Reachable (removeAlert s alertId)
  | update (s : AlertState) (alertId : String) (u : AlertUpdates) :
      Reachable s → Reachable (updateAlert s alertId u)
  | eval (s : AlertState) (prices : List (String × Coingecko.PriceData))
      (idGen : Nat → String) (now : ℤ) :
      Reachable s → Reachable (evaluateAlerts s prices idGen now)
  | view (s : AlertState) : Reachable s → Reachable (markAllAsViewed s)
  | clear (s : AlertState) : Reachable s → Reachable (clearTriggeredAlerts s)

end AlertStore

namespace AlertStore

theorem firedWithPrice_map_fst
    (prices : List (String × Coingecko.PriceData)) :
    ∀ l : List Alert,
      (firedWithPrice prices l).map Prod.fst = l.filter (firedB prices) := by
  intro l
  induction l with
  | nil => rfl
  | cons a rest ih =>
    rw [firedWithPrice, List.filter_cons]
    cases hl : prices.lookup a.cryptoId with
    | none =>
      have hfa : firedB prices a = false := by rw [firedB, hl]
      rw [hfa]
      simp only []
      simpa using ih
    | some pd =>
      have hfa : firedB prices a = trigCondB a pd.price := by rw [firedB, hl]
      rw [hfa]
      simp only []
      by_cases ht : trigCondB a pd.price = true
      · rw [if_pos ht, if_pos ht]
        simp only [List.map_cons]
        rw [ih]
      · rw [if_neg ht, if_neg ht]
        exact ih

theorem firedWithPrice_price
    (prices : List (String × Coingecko.PriceData)) :
    ∀ l : List Alert, ∀ ap ∈ firedWithPrice prices l,
      (prices.lookup ap.1.cryptoId).map (fun pd => pd.price) = some ap.2 := by
  intro l
  induction l with
  | nil => intro ap hap; simp [firedWithPrice] at hap
  | cons a rest ih =>
    intro ap hap
    rw [firedWithPrice] at hap
    cases hl : prices.lookup a.cryptoId with
    | none =>
      rw [hl] at hap
      simp only [] at hap
      exact ih ap hap
    | some pd =>
      rw [hl] at hap
      simp only [] at hap
      by_cases ht : trigCondB a pd.price = true
      · rw [if_pos ht] at hap
        rcases List.mem_cons.mp hap with heq | hmem
        · subst heq
          rw [hl]
          rfl
        · exact ih ap hmem
      · rw [if_neg ht] at hap
        exact ih ap hap

theorem attachIds_map_alert (idGen : Nat → String) (now : ℤ) :
    ∀ (l : List (Alert × JSNum)) (k : Nat),
      (attachIds idGen now k l).map TriggeredAlert.alert = l.map Prod.fst := by
  intro l
  induction l with
  | nil => intro k; rfl
  | cons ap rest ih =>
    intro k
    rw [attachIds, List.map_cons, List.map_cons, ih]

theorem attachIds_mem (idGen : Nat → String) (now : ℤ) :
    ∀ (l : List (Alert × JSNum)) (k : Nat), ∀ t ∈ attachIds idGen now k l,
      t.triggeredAt = now ∧ t.viewed = false ∧
        ∃ ap ∈ l, t.alert = ap.1 ∧ t.triggeredPrice = ap.2 := by
  intro l
  induction l with
  | nil => intro k t ht; simp [attachIds] at ht
  | cons ap rest ih =>
    intro k t ht
    rw [attachIds] at ht
    rcases List.mem_cons.mp ht with heq | hmem
    · subst heq
      exact ⟨rfl, rfl, ap, List.mem_cons_self ap rest, rfl, rfl⟩
    · obtain ⟨h1, h2, bp, hbp, h3, h4⟩ := ih (k + 1) t hmem
      exact ⟨h1, h2, bp, List.mem_cons_of_mem ap hbp, h3, h4⟩

theorem contains_filter_map_id (l : List Alert)
    (hid : (l.map Alert.id).Nodup) (p : Alert → Bool) (a : Alert)
    (ha : a ∈ l) :
    ((l.filter p).map Alert.id).contains a.id = p a := by
  cases hp : p a
  · apply Bool.eq_false_iff.mpr
    intro hc
    have hmem : a.id ∈ (l.filter p).map Alert.id := List.elem_iff.mp hc
    obtain ⟨b, hb, hbid⟩ := List.mem_map.mp hmem
    have hbl : b ∈ l := (List.mem_filter.mp hb).1
    have hbp : p b = true := (List.mem_filter.mp hb).2
    have hba : b = a := List.inj_on_of_nodup_map hid hbl ha hbid
    rw [hba] at hbp
    rw [hbp] at hp
    exact Bool.true_eq_false.mp hp
  · apply List.elem_iff.mpr
    exact List.mem_map.mpr ⟨a, List.mem_filter.mpr ⟨ha, hp⟩, rfl⟩

end AlertStore

namespace AlertStore

/-- C4: under distinct alert ids, evaluateAlerts removes from the active set
exactly the alerts that fire — above fires iff a price entry exists and is at
least the threshold, below iff it exists and is at most the threshold, with
boundary equality firing — and prepends one TriggeredAlert per fired alert,
carrying the triggering price, the triggering time and a copy of the alert;
alerts whose instrument has no price entry stay in the active set. -/
theorem evaluateAlerts_spec (s : AlertState)
    (prices : List (String × Coingecko.PriceData)) (idGen : Nat → String)
    (now : ℤ) (hid : (s.activeAlerts.map Alert.id).Nodup) :
    (evaluateAlerts s prices idGen now).activeAlerts =
      s.activeAlerts.filter (fun a => !(firedB prices a)) ∧
    (∃ nt, (evaluateAlerts s prices idGen now).triggeredAlerts =
        nt ++ s.triggeredAlerts ∧
      nt.map TriggeredAlert.alert = s.activeAlerts.filter (firedB prices) ∧
      (∀ t ∈ nt, t.triggeredAt = now ∧ t.viewed = false ∧
        (prices.lookup t.alert.cryptoId).map (fun pd => pd.price) =
          some t.triggeredPrice)) ∧
    (∀ a ∈ s.activeAlerts, firedB prices a = true →
      a ∉ (evaluateAlerts s prices idGen now).activeAlerts) ∧
    (∀ a ∈ s.activeAlerts, prices.lookup a.cryptoId = none →
      a ∈ (evaluateAlerts s prices idGen now).activeAlerts) := by
  have hfst := firedWithPrice_map_fst prices s.activeAlerts
  have hids : (firedWithPrice prices s.activeAlerts).map (fun ap => ap.1.id) =
      (s.activeAlerts.filter (firedB prices)).map Alert.id := by
    rw [← hfst, List.map_map]
    rfl
  have hmain : (evaluateAlerts s prices idGen now).activeAlerts =
        s.activeAlerts.filter (fun a => !(firedB prices a)) ∧
      ∃ nt, (evaluateAlerts s prices idGen now).triggeredAlerts =
          nt ++ s.triggeredAlerts ∧
        nt.map TriggeredAlert.alert = s.activeAlerts.filter (firedB prices) ∧
        (∀ t ∈ nt, t.triggeredAt = now ∧ t.viewed = false ∧
          (prices.lookup t.alert.cryptoId).map (fun pd => pd.price) =
            some t.triggeredPrice) := by
    by_cases hne : ((firedWithPrice prices s.activeAlerts).map
        (fun ap => ap.1.id)).isEmpty
    · have hfe : firedWithPrice prices s.activeAlerts = [] := by
        have := List.isEmpty_iff.mp hne
        exact List.map_eq_nil_iff.mp this
      have hfilter : s.activeAlerts.filter (firedB prices) = [] := by
        rw [← hfst, hfe]
        rfl
      have heval : evaluateAlerts s prices idGen now = s := by
        simp only [evaluateAlerts]
        rw [if_pos hne]
      rw [heval]
      constructor
      · symm
        apply List.filter_eq_self.mpr
        intro a ha
        have := List.filter_eq_nil_iff.mp hfilter a ha
        simp only [Bool.not_eq_true'] at this ⊢
        rw [Bool.not_eq_true] at this
        rw [this]
      · exact ⟨[], rfl, by rw [hfilter]; rfl, by intro t ht; simp at ht⟩
    · have heval : evaluateAlerts s prices idGen now =
          { activeAlerts := s.activeAlerts.filter (fun a =>
              !(((firedWithPrice prices s.activeAlerts).map
                (fun ap => ap.1.id)).contains a.id)),
            triggeredAlerts :=
              attachIds idGen now 0 (firedWithPrice prices s.activeAlerts) ++
                s.triggeredAlerts } := by
        simp only [evaluateAlerts]
        rw [if_neg hne]
      rw [heval]
      constructor
      · apply List.filter_congr
        intro a ha
        rw [hids, contains_filter_map_id s.activeAlerts hid (firedB prices) a ha]
      · refine ⟨attachIds idGen now 0 (firedWithPrice prices s.activeAlerts),
          rfl, ?_, ?_⟩
        · rw [attachIds_map_alert, hfst]
        · intro t ht
          obtain ⟨h1, h2, ap, hap, h3, h4⟩ :=
            attachIds_mem idGen now (firedWithPrice prices s.activeAlerts) 0 t ht
          refine ⟨h1, h2, ?_⟩
          rw [h3, h4]
          exact firedWithPrice_price prices s.activeAlerts ap hap
  refine ⟨hmain.1, hmain.2, ?_, ?_⟩
  · intro a ha hfa hmem
    rw [hmain.1] at hmem
    have := (List.mem_filter.mp hmem).2
    rw [hfa] at this
    exact Bool.true_eq_false.mp this.symm
  · intro a ha hnone
    rw [hmain.1]
    apply List.mem_filter.mpr
    refine ⟨ha, ?_⟩
    have : firedB prices a = false := by rw [firedB, hnone]
    rw [this]
    rfl

/-- Witness for evaluateAlerts_spec: one above alert at threshold 100000 and
a price exactly 100000 — the boundary case — leaves the active set empty. -/
theorem evaluateAlerts_spec_witness :
    (evaluateAlerts
      ⟨[Alert.mk "a1" "bitcoin" .above 100000 0], []⟩
      [("bitcoin", Coingecko.PriceData.mk "bitcoin" (.fin 100000) (.fin 0)
        (.fin 0) 5)]
      (fun _ => "t1") 5).activeAlerts =
    List.filter (fun a => !(firedB
      [("bitcoin", Coingecko.PriceData.mk "bitcoin" (.fin 100000) (.fin 0)
        (.fin 0) 5)] a))
      [Alert.mk "a1" "bitcoin" .above 100000 0] :=
  (evaluateAlerts_spec
    ⟨[Alert.mk "a1" "bitcoin" .above 100000 0], []⟩
    [("bitcoin", Coingecko.PriceData.mk "bitcoin" (.fin 100000) (.fin 0)
      (.fin 0) 5)]
    (fun _ => "t1") 5 (by decide)).1

end AlertStore

namespace AlertStore

theorem nodup_cryptoIds_filter (l : List Alert) (p : Alert → Bool)
    (h : (l.map (fun a => a.cryptoId)).Nodup) :
    ((l.filter p).map (fun a => a.cryptoId)).Nodup :=
  List.Nodup.sublist
    (List.Sublist.map (fun a => a.cryptoId) (List.filter_sublist l)) h

/-- C9: every reachable alert-store state has pairwise-distinct instrument
ids across its active alerts — no operation ever introduces a second active
alert for an instrument — and addAlert leaves exactly one active alert for
its instrument, the newly built one. -/
theorem alertStore_one_alert_per_crypto :
    (∀ s, Reachable s →
      (s.activeAlerts.map (fun a => a.cryptoId)).Nodup) ∧
    (∀ (s : AlertState) (input : AlertInput) (id : String) (now : ℤ),
      (addAlert s input id now).activeAlerts.filter
          (fun a => a.cryptoId == input.cryptoId) =
        [Alert.mk id input.cryptoId input.type input.threshold now]) := by
  constructor
  · intro s hs
    induction hs with
    | init => simp
    | add s input id now _ ih =>
      simp only [addAlert, List.map_append]
      apply List.nodup_append.mpr
      refine ⟨nodup_cryptoIds_filter s.activeAlerts _ ih, by simp, ?_⟩
      intro x hx
      simp only [List.mem_map] at hx
      obtain ⟨b, hb, hbx⟩ := hx
      have hbp := (List.mem_filter.mp hb).2
      simp only [Bool.not_eq_true'] at hbp
      simp only [List.map_cons, List.map_nil, List.mem_singleton]
      intro hxc
      rw [← hbx] at hxc
      rw [hxc] at hbp
      simp at hbp
    | remove s alertId _ ih =>
      exact nodup_cryptoIds_filter s.activeAlerts _ ih
    | update s alertId u _ ih =>
      simp only [updateAlert]
      rw [List.map_map]
      have : ((fun a => a.cryptoId) ∘ fun a =>
          if a.id == alertId then
            { a with type := u.type.getD a.type,
                     threshold := u.threshold.getD a.threshold }
          else a) = fun a : Alert => a.cryptoId := by
        funext a
        simp only [Function.comp_apply]
        by_cases h : (a.id == alertId) = true
        · rw [if_pos h]
        · rw [if_neg h]
      rw [this]
      exact ih
    | eval s prices idGen now _ ih =>
      by_cases hne : ((firedWithPrice prices s.activeAlerts).map
          (fun ap => ap.1.id)).isEmpty
      · have heval : evaluateAlerts s prices idGen now = s := by
          simp only [evaluateAlerts]
          rw [if_pos hne]
        rw [heval]
        exact ih
      · have heval : (evaluateAlerts s prices idGen now).activeAlerts =
            s.activeAlerts.filter (fun a =>
              !(((firedWithPrice prices s.activeAlerts).map
                (fun ap => ap.1.id)).contains a.id)) := by
          simp only [evaluateAlerts]
          rw [if_neg hne]
        rw [heval]
        exact nodup_cryptoIds_filter s.activeAlerts _ ih
    | view s _ ih => exact ih
    | clear s _ ih => exact ih
  · intro s input id now
    simp only [addAlert]
    rw [List.filter_append, List.filter_filter]
    have h1 : List.filter (fun a =>
        (a.cryptoId == input.cryptoId) && !(a.cryptoId == input.cryptoId))
        s.activeAlerts = [] := by
      apply List.filter_eq_nil_iff.mpr
      intro a _
      cases hb : a.cryptoId == input.cryptoId <;> simp [hb]
    rw [h1, List.nil_append, List.filter_cons]
    simp

/-- Witness for alertStore_one_alert_per_crypto: the state reached by two
addAlert calls for the same instrument has pairwise-distinct instrument ids
(a single active alert). -/
theorem alertStore_one_alert_per_crypto_witness :
    ((addAlert (addAlert ⟨[], []⟩ ⟨"bitcoin", .above, 100⟩ "i1" 0)
        ⟨"bitcoin", .below, 50⟩ "i2" 1).activeAlerts.map
      (fun a => a.cryptoId)).Nodup :=
  alertStore_one_alert_per_crypto.1 _
    (Reachable.add _ _ _ _ (Reachable.add _ _ _ _ Reachable.init))

end AlertStore

/-- JavaScript object property assignment on a string-keyed object modelled
as an association list with distinct keys: replace in place when the key
exists, append otherwise. -/
def jsSet {β : Type} (m : List (String × β)) (k : String) (v : β) :
    List (String × β) :=
  if m.any (fun e => e.1 == k) then
    m.map (fun e => if e.1 == k then (k, v) else e)
  else m ++ [(k, v)]

namespace PriceStore

/-- State of the price data store (the fields of PriceStoreState that
fetchAllPrices reads or writes). -/
structure PriceStoreState where
  prices : List (String × Coingecko.PriceData)
  isLoading : Bool
  error : Option ApiError
  lastFetchTime : Option ℤ
  consecutiveFailures : Nat
deriving DecidableEq, Repr

/-- The priceMap built on a successful fetch: one entry per cryptoId, later
entries overwriting earlier ones as JavaScript object assignment does. -/
def buildPriceMap (data : List Coingecko.PriceData) :
    List (String × Coingecko.PriceData) :=
  data.foldl (fun m p => jsSet m p.cryptoId p) []

/-- The fetchAllPrices action of priceStore.ts as a function of the starting
state and the awaited fetch result: returns the state visible while the
fetch is in flight (after the conditional loading set) and the final state. -/
def fetchAllPrices (s : PriceStoreState)
    (result : Except ApiError (List Coingecko.PriceData)) (now : ℤ) :
    PriceStoreState × PriceStoreState :=
  let mid := if s.consecutiveFailures = 0 then { s with isLoading := true }
    else s
  match result with
  | .ok data =>
    (mid,
      { mid with
        prices := buildPriceMap data
        isLoading := false
        error := none
        lastFetchTime := some now
        consecutiveFailures := 0 })
  | .error e =>
    (mid,
      { mid with
        isLoading := false
        error := some e
        consecutiveFailures := mid.consecutiveFailures + 1 })

/-- C5: a fetchAllPrices call whose fetch fails leaves the prices map and
lastFetchTime exactly as they were, clears loading, stores the error, and
increments consecutiveFailures by one. -/
theorem fetchAllPrices_failure_spec (s : PriceStoreState)
    (result : Except ApiError (List Coingecko.PriceData)) (now : ℤ)
    (e : ApiError) (h : result = .error e) :
    (fetchAllPrices s result now).2.prices = s.prices ∧
    (fetchAllPrices s result now).2.lastFetchTime = s.lastFetchTime ∧
    (fetchAllPrices s result now).2.error = some e ∧
    (fetchAllPrices s result now).2.consecutiveFailures =
      s.consecutiveFailures + 1 ∧
    (fetchAllPrices s result now).2.isLoading = false := by
  subst h
  simp only [fetchAllPrices]
  by_cases hc : s.consecutiveFailures = 0
  · simp [hc]
  · simp [hc]

/-- Witness for fetchAllPrices_failure_spec at a concrete failing fetch. -/
theorem fetchAllPrices_failure_spec_witness :
    (fetchAllPrices ⟨[], false, none, some 7, 2⟩
      (.error ⟨.NETWORK, true⟩) 9).2.prices = [] ∧
    (fetchAllPrices ⟨[], false, none, some 7, 2⟩
      (.error ⟨.NETWORK, true⟩) 9).2.lastFetchTime = some 7 ∧
    (fetchAllPrices ⟨[], false, none, some 7, 2⟩
      (.error ⟨.NETWORK, true⟩) 9).2.consecutiveFailures = 3 := by
  have h := fetchAllPrices_failure_spec ⟨[], false, none, some 7, 2⟩
    (.error ⟨.NETWORK, true⟩) 9 ⟨.NETWORK, true⟩ rfl
  exact ⟨h.1, h.2.1, h.2.2.2.1⟩

/-- C6: fetchAllPrices sets isLoading before the awaited fetch exactly when
consecutiveFailures is 0 (with one or more prior failures the pre-fetch
state is completely untouched), and on success it resets the failure count,
clears the error, stamps lastFetchTime and stores the fresh price map. -/
theorem fetchAllPrices_loading_spec (s : PriceStoreState)
    (result : Except ApiError (List Coingecko.PriceData)) (now : ℤ) :
    (s.consecutiveFailures = 0 →
      (fetchAllPrices s result now).1 = { s with isLoading := true }) ∧
    (1 ≤ s.consecutiveFailures → (fetchAllPrices s result now).1 = s) ∧
    (∀ data, result = .ok data →
      (fetchAllPrices s result now).2.consecutiveFailures = 0 ∧
      (fetchAllPrices s result now).2.error = none ∧
      (fetchAllPrices s result now).2.lastFetchTime = some now ∧
      (fetchAllPrices s result now).2.isLoading = false ∧
      (fetchAllPrices s result now).2.prices = buildPriceMap data) := by
  refine ⟨?_, ?_, ?_⟩
  · intro hc
    simp only [fetchAllPrices]
    cases result <;> simp [hc]
  · intro hc
    have hc0 : ¬ s.consecutiveFailures = 0 := by omega
    simp only [fetchAllPrices]
    cases result <;> simp [hc0]
  · intro data hd
    subst hd
    simp only [fetchAllPrices]
    by_cases hc : s.consecutiveFailures = 0
    · simp [hc]
    · simp [hc]

/-- Witness for fetchAllPrices_loading_spec: a first fetch (zero failures)
sets loading, and a successful result resets the failure counter. -/
theorem fetchAllPrices_loading_spec_witness :
    (fetchAllPrices ⟨[], false, none, none, 0⟩ (.ok []) 3).1 =
      { (⟨[], false, none, none, 0⟩ : PriceStoreState) with
        isLoading := true } ∧
    (fetchAllPrices ⟨[], false, none, none, 0⟩
      (.ok []) 3).2.consecutiveFailures = 0 ∧
    (fetchAllPrices ⟨[], false, none, some 1, 4⟩ (.ok []) 3).1 =
      ⟨[], false, none, some 1, 4⟩ := by
  refine ⟨?_, ?_, ?_⟩
  · exact (fetchAllPrices_loading_spec ⟨[], false, none, none, 0⟩
      (.ok []) 3).1 rfl
  · exact ((fetchAllPrices_loading_spec ⟨[], false, none, none, 0⟩
      (.ok []) 3).2.2 [] rfl).1
  · exact (fetchAllPrices_loading_spec ⟨[], false, none, some 1, 4⟩
      (.ok []) 3).2.1 (by norm_num)

end PriceStore

namespace PollingStore

/-- State of the polling engine: the isPolling flag of the store, the module-level
pollingInterval handle, plus an explicit environment recording which timers
are currently scheduled and the supply of fresh timer ids, and the count of
immediate fetches issued by startPolling. -/
structure PollState where
  isPolling : Bool
  pollingInterval : Option Nat
  liveTimers : List Nat
  nextTimerId : Nat
  fetchCount : Nat
deriving DecidableEq, Repr

/-- The startPolling action: a no-op when already polling; otherwise set the
flag, fetch immediately, and schedule one repeating timer, storing its
handle in the module-level variable. -/
def startPolling (s : PollState) : PollState :=
  if s.isPolling then s
  else
    { isPolling := true
      pollingInterval := some s.nextTimerId
      liveTimers := s.liveTimers ++ [s.nextTimerId]
      nextTimerId := s.nextTimerId + 1
      fetchCount := s.fetchCount + 1 }

/-- The stopPolling action: cancel the stored timer handle if one exists,
clear the handle, and clear the polling flag. -/
def stopPolling (s : PollState) : PollState :=
  match s.pollingInterval with
  | some h =>
    { s with
      liveTimers := s.liveTimers.filter (fun t => !(t == h))
      pollingInterval := none
      isPolling := false }
  | none => { s with isPolling := false }

/-- The initial module state: not polling, no handle, no live timer. -/
def initialPollState : PollState := ⟨false, none, [], 0, 0⟩

/-- States reachable from the initial state by any sequence of startPolling
and stopPolling calls. -/
inductive Reachable : PollState → Prop
  | init : Reachable initialPollState
  | start (s : PollState) : Reachable s → Reachable (startPolling s)
  | stop (s : PollState) : Reachable s → Reachable (stopPolling s)

/-- The invariant tying the module state together: the scheduled timers are
exactly the stored handle, and the flag mirrors the handle. -/
def PollInv (s : PollState) : Prop :=
  s.liveTimers = s.pollingInterval.toList ∧
  s.isPolling = s.pollingInterval.isSome

theorem pollInv_reachable : ∀ s, Reachable s → PollInv s := by
  intro s hs
  induction hs with
  | init => exact ⟨rfl, rfl⟩
  | start s _ ih =>
    rw [startPolling]
    by_cases hp : s.isPolling
    · rw [if_pos hp]
      exact ih
    · rw [if_neg hp]
      have hnone : s.pollingInterval = none := by
        cases hi : s.pollingInterval with
        | none => rfl
        | some h =>
          exfalso
          apply hp
          rw [ih.2, hi]
          rfl
      refine ⟨?_, rfl⟩
      rw [ih.1, hnone]
      rfl
  | stop s _ ih =>
    rw [stopPolling]
    cases hi : s.pollingInterval with
    | none => exact ⟨by rw [ih.1, hi], rfl⟩
    | some h =>
      refine ⟨?_, rfl⟩
      simp only []
      rw [ih.1, hi]
      simp [Option.toList]

/-- C10: in every reachable polling-engine state at most one timer is live;
startPolling while already polling changes nothing (no fetch, no second
timer); and stopPolling always clears the handle and the flag and leaves no
live timer, so alternating or repeated start and stop calls never leak. -/
theorem polling_single_timer_spec :
    (∀ s, Reachable s → s.liveTimers.length ≤ 1) ∧
    (∀ s, s.isPolling = true → startPolling s = s) ∧
    (∀ s, Reachable s →
      (stopPolling s).pollingInterval = none ∧
      (stopPolling s).isPolling = false ∧
      (stopPolling s).liveTimers = []) := by
  refine ⟨?_, ?_, ?_⟩
  · intro s hs
    have h := (pollInv_reachable s hs).1
    rw [h]
    cases s.pollingInterval <;> simp [Option.toList]
  · intro s hp
    rw [startPolling, if_pos hp]
  · intro s hs
    have h := (pollInv_reachable s hs).1
    rw [stopPolling]
    cases hi : s.pollingInterval with
    | none =>
      refine ⟨rfl, rfl, ?_⟩
      simp only []
      rw [h, hi]
      rfl
    | some t =>
      refine ⟨rfl, rfl, ?_⟩
      simp only []
      rw [h, hi]
      simp [Option.toList]

/-- Witness for polling_single_timer_spec: after start, start, stop from the
initial state no timer is live, and a second start while polling is the
identity. -/
theorem polling_single_timer_spec_witness :
    (startPolling (startPolling initialPollState)).liveTimers.length ≤ 1 ∧
    startPolling (startPolling initialPollState) =
      startPolling initialPollState ∧
    (stopPolling (startPolling initialPollState)).liveTimers = [] := by
  refine ⟨?_, ?_, ?_⟩
  · exact polling_single_timer_spec.1 _
      (Reachable.start _ (Reachable.start _ Reachable.init))
  · exact polling_single_timer_spec.2.1 (startPolling initialPollState) rfl
  · exact (polling_single_timer_spec.2.2 _
      (Reachable.start _ Reachable.init)).2.2

end PollingStore

namespace ChartStore

/-- Chart cache capacity constant MAX_CHART_CACHE_SIZE of chartStore.ts. -/
def MAX_CHART_CACHE_SIZE : Nat := 20

/-- Freshness TTL constant CHART_CACHE_DURATION (5 minutes). -/
def CHART_CACHE_DURATION : ℤ := 5 * 60 * 1000

/-- One cached chart entry (ChartCache in chartStore.ts). -/
structure ChartCache where
  prices : List Coingecko.ChartDataPoint
  volumes : List Coingecko.ChartDataPoint
  timeframe : Coingecko.ChartTimeframe
  fetchedAt : ℤ
deriving DecidableEq, Repr

/-- Per-chart loading state (ChartLoadingState in chartStore.ts). -/
structure ChartLoadingState where
  isLoading : Bool
  error : Option ApiError
deriving DecidableEq, Repr

/-- State of the chart store. -/
structure ChartStoreState where
  chartCache : List (String × ChartCache)
  chartLoadingStates : List (String × ChartLoadingState)
deriving DecidableEq, Repr

/-- String form of a timeframe, as interpolated into the cache key. -/
def timeframeKey : Coingecko.ChartTimeframe → String
  | .h1 => "1h"
  | .h24 => "24h"
  | .d7 => "7d"
  | .d30 => "30d"
  | .d90 => "90d"
  | .y1 => "1y"

/-- The comparator passed to the sort in the eviction block, as a Boolean
less-or-equal on fetchedAt (the code subtracts the timestamps; a stable
ascending sort by fetchedAt results either way). -/
def fetchedAtLe (a b : String × ChartCache) : Bool :=
  decide (a.2.fetchedAt ≤ b.2.fetchedAt)

/-- Eviction block of getChartData: when the cache exceeds capacity, sort by
fetchedAt ascending, take the keys of the oldest surplus entries, and delete
them. -/
def evictIfNeeded (cache : List (String × ChartCache)) :
    List (String × ChartCache) :=
  if MAX_CHART_CACHE_SIZE < cache.length then
    let sorted := cache.mergeSort fetchedAtLe
    let keysToRemove :=
      (sorted.take (cache.length - MAX_CHART_CACHE_SIZE)).map Prod.fst
    cache.filter (fun e => !(keysToRemove.contains e.1))
  else cache

/-- Value returned to the caller of getChartData. -/
structure ChartReturn where
  prices : List Coingecko.ChartDataPoint
  volumes : List Coingecko.ChartDataPoint
  error : Option ApiError
deriving DecidableEq, Repr

/-- Observable outcome of one getChartData call: the new store state, the
returned value, and whether a network fetch was issued. -/
structure GetChartOutcome where
  state : ChartStoreState
  ret : ChartReturn
  didFetch : Bool
deriving DecidableEq, Repr

/-- Fetch path of getChartData (cache miss or stale): set the per-key
loading flag, then on success upsert the entry and evict, on failure keep
the cache intact, record the per-key error, and fall back to the cached
series when present. -/
def getChartDataFetch (s : ChartStoreState) (cacheKey : String)
    (tf : Coingecko.ChartTimeframe) (doneAt : ℤ) (cached : Option ChartCache)
    (fetchResult : Except ApiError Coingecko.ChartResult) : GetChartOutcome :=
  let loading1 := jsSet s.chartLoadingStates cacheKey ⟨true, none⟩
  match fetchResult with
  | .ok data =>
    ⟨⟨evictIfNeeded (jsSet s.chartCache cacheKey
        ⟨data.prices, data.volumes, tf, doneAt⟩),
      jsSet loading1 cacheKey ⟨false, none⟩⟩,
      ⟨data.prices, data.volumes, none⟩, true⟩
  | .error e =>
    ⟨⟨s.chartCache, jsSet loading1 cacheKey ⟨false, some e⟩⟩,
      ⟨(cached.map (fun c => c.prices)).getD [],
       (cached.map (fun c => c.volumes)).getD [], some e⟩, true⟩

/-- The getChartData action of chartStore.ts: a fresh cache hit (matching
stored timeframe and age under the TTL) returns at once with no mutation and
no fetch; otherwise the fetch path runs against the awaited fetch result.
now is Date.now() at the freshness check, doneAt at the cache insert. -/
def getChartData (s : ChartStoreState) (cryptoId : String)
    (tf : Coingecko.ChartTimeframe) (now doneAt : ℤ)
    (fetchResult : Except ApiError Coingecko.ChartResult) : GetChartOutcome :=
  let cacheKey := cryptoId ++ "-" ++ timeframeKey tf
  match s.chartCache.lookup cacheKey with
  | some c =>
    if c.timeframe = tf ∧ now - c.fetchedAt < CHART_CACHE_DURATION then
      ⟨s, ⟨c.prices, c.volumes, none⟩, false⟩
    else getChartDataFetch s cacheKey tf doneAt (some c) fetchResult
  | none => getChartDataFetch s cacheKey tf doneAt none fetchResult

end ChartStore

/-- JavaScript object assignment preserves distinctness of keys. -/
theorem jsSet_keys_nodup {β : Type} (m : List (String × β)) (k : String)
    (v : β) (h : (m.map Prod.fst).Nodup) :
    ((jsSet m k v).map Prod.fst).Nodup := by
  rw [jsSet]
  by_cases hc : m.any (fun e => e.1 == k) = true
  · rw [if_pos hc]
    have hkeys : (m.map (fun e => if e.1 == k then (k, v) else e)).map
        Prod.fst = m.map Prod.fst := by
      rw [List.map_map]
      apply List.map_congr_left
      intro e _
      simp only [Function.comp_apply]
      by_cases he : (e.1 == k) = true
      · rw [if_pos he]
        exact (beq_iff_eq.mp he).symm
      · rw [if_neg he]
    rw [hkeys]
    exact h
  · rw [if_neg hc]
    rw [List.map_append]
    apply List.nodup_append.mpr
    refine ⟨h, by simp, ?_⟩
    intro x hx hxk
    simp only [List.map_cons, List.map_nil, List.mem_singleton] at hxk
    apply hc
    rw [List.any_eq_true]
    obtain ⟨e, he, hex⟩ := List.mem_map.mp hx
    refine ⟨e, he, ?_⟩
    rw [beq_iff_eq, hex, hxk]

namespace ChartStore

theorem fetchedAtLe_trans (a b c : String × ChartCache)
    (hab : fetchedAtLe a b = true) (hbc : fetchedAtLe b c = true) :
    fetchedAtLe a c = true := by
  rw [fetchedAtLe, decide_eq_true_eq] at hab hbc ⊢
  omega

theorem fetchedAtLe_total (a b : String × ChartCache) :
    (fetchedAtLe a b || fetchedAtLe b a) = true := by
  rw [fetchedAtLe, fetchedAtLe]
  simp only [Bool.or_eq_true, decide_eq_true_eq]
  omega

/-- The sorted copy of the cache built by the eviction block. -/
def evictSorted (cache : List (String × ChartCache)) :
    List (String × ChartCache) :=
  cache.mergeSort fetchedAtLe

/-- The keys the eviction block deletes: those of the oldest surplus entries
of the sorted copy. -/
def evictKeysToRemove (cache : List (String × ChartCache)) : List String :=
  ((evictSorted cache).take (cache.length - MAX_CHART_CACHE_SIZE)).map
    Prod.fst

/-- Survival predicate of the eviction block: the key of the entry was not
selected for deletion. -/
def evictPred (cache : List (String × ChartCache)) (e : String × ChartCache) :
    Bool :=
  !((evictKeysToRemove cache).contains e.1)

theorem evictIfNeeded_eq_filter (cache : List (String × ChartCache))
    (hlen : MAX_CHART_CACHE_SIZE < cache.length) :
    evictIfNeeded cache = cache.filter (evictPred cache) := by
  simp only [evictIfNeeded]
  rw [if_pos hlen]
  rfl

theorem evictIfNeeded_eq_self (cache : List (String × ChartCache))
    (hlen : cache.length ≤ MAX_CHART_CACHE_SIZE) :
    evictIfNeeded cache = cache := by
  simp only [evictIfNeeded]
  rw [if_neg (by omega)]

theorem evict_core (cache : List (String × ChartCache))
    (hk : (cache.map Prod.fst).Nodup)
    (hlen : MAX_CHART_CACHE_SIZE < cache.length) :
    (evictIfNeeded cache).length = MAX_CHART_CACHE_SIZE ∧
    (∀ r ∈ cache, r ∉ evictIfNeeded cache →
      ∀ k ∈ evictIfNeeded cache, r.2.fetchedAt ≤ k.2.fetchedAt) ∧
    (cache.length = MAX_CHART_CACHE_SIZE + 1 →
      ∀ r ∈ cache, r ∉ evictIfNeeded cache →
        ∀ p ∈ cache, p ∉ evictIfNeeded cache → p = r) := by
  have hperm : (evictSorted cache).Perm cache :=
    List.mergeSort_perm cache fetchedAtLe
  have hpw : List.Pairwise (fun a b => fetchedAtLe a b = true)
      (evictSorted cache) :=
    List.sorted_mergeSort fetchedAtLe_trans fetchedAtLe_total cache
  have hsplit : (evictSorted cache).take
        (cache.length - MAX_CHART_CACHE_SIZE) ++
      (evictSorted cache).drop (cache.length - MAX_CHART_CACHE_SIZE) =
      evictSorted cache :=
    List.take_append_drop _ _
  have hnodupS : ((evictSorted cache).map Prod.fst).Nodup :=
    (List.Perm.nodup_iff (List.Perm.map Prod.fst hperm)).mpr hk
  have hdisj : ∀ x ∈ (evictSorted cache).take
        (cache.length - MAX_CHART_CACHE_SIZE),
      ∀ y ∈ (evictSorted cache).drop (cache.length - MAX_CHART_CACHE_SIZE),
        x.1 ≠ y.1 := by
    have h2 : (((evictSorted cache).take
          (cache.length - MAX_CHART_CACHE_SIZE)).map Prod.fst ++
        ((evictSorted cache).drop
          (cache.length - MAX_CHART_CACHE_SIZE)).map Prod.fst).Nodup := by
      rw [← List.map_append, hsplit]
      exact hnodupS
    have h3 := (List.nodup_append.mp h2).2.2
    intro x hx y hy hxy
    exact h3 (List.mem_map_of_mem Prod.fst hx)
      (by rw [hxy]; exact List.mem_map_of_mem Prod.fst hy)
  have htake_pred : ∀ e ∈ (evictSorted cache).take
      (cache.length - MAX_CHART_CACHE_SIZE), evictPred cache e = false := by
    intro e he
    rw [evictPred]
    have hmem : e.1 ∈ evictKeysToRemove cache :=
      List.mem_map_of_mem Prod.fst he
    have hel : (evictKeysToRemove cache).contains e.1 = true :=
      List.elem_iff.mpr hmem
    rw [hel]
    rfl
  have hdrop_pred : ∀ e ∈ (evictSorted cache).drop
      (cache.length - MAX_CHART_CACHE_SIZE), evictPred cache e = true := by
    intro e he
    rw [evictPred]
    cases hc : (evictKeysToRemove cache).contains e.1
    · rfl
    · exfalso
      obtain ⟨q, hq, hq1⟩ := List.mem_map.mp (List.elem_iff.mp hc)
      exact hdisj q hq e he hq1
  have hfilterS : (evictSorted cache).filter (evictPred cache) =
      (evictSorted cache).drop (cache.length - MAX_CHART_CACHE_SIZE) := by
    conv_lhs => rw [← hsplit]
    rw [List.filter_append,
      List.filter_eq_nil_iff.mpr
        (fun a ha => by rw [htake_pred a ha]; simp),
      List.filter_eq_self.mpr hdrop_pred, List.nil_append]
  have hpermF : (cache.filter (evictPred cache)).Perm
      ((evictSorted cache).drop (cache.length - MAX_CHART_CACHE_SIZE)) := by
    have h4 := List.Perm.filter (evictPred cache) hperm.symm
    rw [hfilterS] at h4
    exact h4
  have hlenE : (evictIfNeeded cache).length = MAX_CHART_CACHE_SIZE := by
    rw [evictIfNeeded_eq_filter cache hlen, hpermF.length_eq,
      List.length_drop, hperm.length_eq]
    omega
  refine ⟨hlenE, ?_, ?_⟩
  · intro r hr hnr k hk2
    have hrS : r ∈ evictSorted cache := hperm.mem_iff.mpr hr
    have hrsplit : r ∈ (evictSorted cache).take
          (cache.length - MAX_CHART_CACHE_SIZE) ++
        (evictSorted cache).drop (cache.length - MAX_CHART_CACHE_SIZE) := by
      rw [hsplit]
      exact hrS
    have hrtake : r ∈ (evictSorted cache).take
        (cache.length - MAX_CHART_CACHE_SIZE) := by
      rcases List.mem_append.mp hrsplit with h | h
      · exact h
      · exfalso
        apply hnr
        rw [evictIfNeeded_eq_filter cache hlen]
        exact List.mem_filter.mpr ⟨hr, hdrop_pred r h⟩
    have hkdrop : k ∈ (evictSorted cache).drop
        (cache.length - MAX_CHART_CACHE_SIZE) := by
      rw [evictIfNeeded_eq_filter cache hlen] at hk2
      exact hpermF.mem_iff.mp hk2
    have hpw2 : List.Pairwise (fun a b => fetchedAtLe a b = true)
        ((evictSorted cache).take (cache.length - MAX_CHART_CACHE_SIZE) ++
          (evictSorted cache).drop
            (cache.length - MAX_CHART_CACHE_SIZE)) := by
      rw [hsplit]
      exact hpw
    have h5 := (List.pairwise_append.mp hpw2).2.2 r hrtake k hkdrop
    rw [fetchedAtLe, decide_eq_true_eq] at h5
    exact h5
  · intro hlen21 r hr hnr p hp hnp
    have key : ∀ x ∈ cache, x ∉ evictIfNeeded cache →
        x ∈ cache.filter (fun e => !(evictPred cache e)) := by
      intro x hx hnx
      apply List.mem_filter.mpr
      refine ⟨hx, ?_⟩
      cases hpx : evictPred cache x
      · rfl
      · exfalso
        apply hnx
        rw [evictIfNeeded_eq_filter cache hlen]
        exact List.mem_filter.mpr ⟨hx, hpx⟩
    have hlenF : (cache.filter (fun e => !(evictPred cache e))).length = 1 := by
      have htot := @List.length_eq_length_filter_add _ cache (evictPred cache)
      have hfl : (cache.filter (evictPred cache)).length =
          MAX_CHART_CACHE_SIZE := by
        rw [← evictIfNeeded_eq_filter cache hlen]
        exact hlenE
      omega
    obtain ⟨x, hx⟩ := List.length_eq_one.mp hlenF
    have h1 : r = x := by
      have := key r hr hnr
      rw [hx] at this
      exact List.mem_singleton.mp this
    have h2 : p = x := by
      have := key p hp hnp
      rw [hx] at this
      exact List.mem_singleton.mp this
    rw [h1, h2]

end ChartStore

namespace ChartStore

theorem getChartData_fresh (s : ChartStoreState) (cryptoId : String)
    (tf : Coingecko.ChartTimeframe) (now doneAt : ℤ)
    (fetchResult : Except ApiError Coingecko.ChartResult) (c : ChartCache)
    (hc : s.chartCache.lookup (cryptoId ++ "-" ++ timeframeKey tf) = some c)
    (htf : c.timeframe = tf)
    (hfresh : now - c.fetchedAt < CHART_CACHE_DURATION) :
    getChartData s cryptoId tf now doneAt fetchResult =
      ⟨s, ⟨c.prices, c.volumes, none⟩, false⟩ := by
  simp only [getChartData]
  rw [hc]
  simp only []
  rw [if_pos ⟨htf, hfresh⟩]

theorem getChartData_miss (s : ChartStoreState) (cryptoId : String)
    (tf : Coingecko.ChartTimeframe) (now doneAt : ℤ)
    (fetchResult : Except ApiError Coingecko.ChartResult)
    (hmiss : ∀ c,
      s.chartCache.lookup (cryptoId ++ "-" ++ timeframeKey tf) = some c →
      ¬(c.timeframe = tf ∧ now - c.fetchedAt < CHART_CACHE_DURATION)) :
    getChartData s cryptoId tf now doneAt fetchResult =
      getChartDataFetch s (cryptoId ++ "-" ++ timeframeKey tf) tf doneAt
        (s.chartCache.lookup (cryptoId ++ "-" ++ timeframeKey tf))
        fetchResult := by
  simp only [getChartData]
  cases hc : s.chartCache.lookup (cryptoId ++ "-" ++ timeframeKey tf) with
  | none => simp only []
  | some c =>
    simp only []
    rw [if_neg (hmiss c hc)]

/-- The cache as it stands right after the upsert of a successful fetch,
before the eviction check (the newCache binding of chartStore.ts). -/
def insertedCache (s : ChartStoreState) (cryptoId : String)
    (tf : Coingecko.ChartTimeframe) (doneAt : ℤ)
    (data : Coingecko.ChartResult) : List (String × ChartCache) :=
  jsSet s.chartCache (cryptoId ++ "-" ++ timeframeKey tf)
    ⟨data.prices, data.volumes, tf, doneAt⟩

/-- C8: a cached entry whose stored timeframe matches the request and whose
age is under the 5-minute TTL is returned as-is — no fetch, no state change,
null error; and when the fetch path runs and fails, the cache is left
intact and the return value carries the cached series when present (empty
series otherwise) together with the error. -/
theorem getChartData_cache_spec (s : ChartStoreState) (cryptoId : String)
    (tf : Coingecko.ChartTimeframe) (now doneAt : ℤ)
    (fetchResult : Except ApiError Coingecko.ChartResult) :
    (∀ c, s.chartCache.lookup (cryptoId ++ "-" ++ timeframeKey tf) = some c →
      c.timeframe = tf → now - c.fetchedAt < CHART_CACHE_DURATION →
      getChartData s cryptoId tf now doneAt fetchResult =
        ⟨s, ⟨c.prices, c.volumes, none⟩, false⟩) ∧
    ((∀ c, s.chartCache.lookup (cryptoId ++ "-" ++ timeframeKey tf) = some c →
        ¬(c.timeframe = tf ∧ now - c.fetchedAt < CHART_CACHE_DURATION)) →
      ∀ e, fetchResult = .error e →
        (getChartData s cryptoId tf now doneAt fetchResult).state.chartCache =
          s.chartCache ∧
        (getChartData s cryptoId tf now doneAt fetchResult).didFetch = true ∧
        (getChartData s cryptoId tf now doneAt fetchResult).ret =
          ⟨((s.chartCache.lookup (cryptoId ++ "-" ++ timeframeKey tf)).map
              (fun c => c.prices)).getD [],
            ((s.chartCache.lookup (cryptoId ++ "-" ++ timeframeKey tf)).map
              (fun c => c.volumes)).getD [], some e⟩) := by
  constructor
  · intro c hc htf hfresh
    exact getChartData_fresh s cryptoId tf now doneAt fetchResult c hc htf
      hfresh
  · intro hmiss e he
    subst he
    rw [getChartData_miss s cryptoId tf now doneAt _ hmiss]
    simp only [getChartDataFetch]
    exact ⟨trivial, trivial, trivial⟩

/-- Witness for getChartData_cache_spec: a fresh hit on a one-entry cache
returns the cached series without fetching, and a failing fetch on an empty
cache leaves the cache empty with empty series and the error. -/
theorem getChartData_cache_spec_witness :
    getChartData
        ⟨[("bitcoin-24h", ⟨[⟨.fin 1, .fin 2⟩], [], .h24, 0⟩)], []⟩
        "bitcoin" .h24 1000 1000 (.error ⟨.NETWORK, true⟩) =
      ⟨⟨[("bitcoin-24h", ⟨[⟨.fin 1, .fin 2⟩], [], .h24, 0⟩)], []⟩,
        ⟨[⟨.fin 1, .fin 2⟩], [], none⟩, false⟩ ∧
    (getChartData ⟨[], []⟩ "bitcoin" .h24 0 0
      (.error ⟨.NETWORK, true⟩)).state.chartCache = [] := by
  constructor
  · exact (getChartData_cache_spec
      ⟨[("bitcoin-24h", ⟨[⟨.fin 1, .fin 2⟩], [], .h24, 0⟩)], []⟩
      "bitcoin" .h24 1000 1000 (.error ⟨.NETWORK, true⟩)).1
      ⟨[⟨.fin 1, .fin 2⟩], [], .h24, 0⟩ (by decide) rfl (by decide)
  · exact ((getChartData_cache_spec ⟨[], []⟩ "bitcoin" .h24 0 0
      (.error ⟨.NETWORK, true⟩)).2
      (by intro c hc; simp at hc) ⟨.NETWORK, true⟩ rfl).1

end ChartStore

namespace ChartStore

/-- C7: after getChartData inserts a fetched entry, a cache within capacity
is kept whole; a cache over capacity (20) is trimmed to exactly 20 entries by
evicting entries whose fetchedAt is no larger than that of every survivor; an
insert bringing the count to 21 evicts exactly one entry, which under
pairwise-distinct fetchedAt stamps is the strict minimum; and a fresh cache
hit leaves the state untouched, so eviction can only happen on insert. -/
theorem getChartData_eviction_spec (s : ChartStoreState) (cryptoId : String)
    (tf : Coingecko.ChartTimeframe) (now doneAt : ℤ)
    (data : Coingecko.ChartResult)
    (hkeys : (s.chartCache.map Prod.fst).Nodup) :
    ((∀ c, s.chartCache.lookup (cryptoId ++ "-" ++ timeframeKey tf) = some c →
        ¬(c.timeframe = tf ∧ now - c.fetchedAt < CHART_CACHE_DURATION)) →
      (getChartData s cryptoId tf now doneAt (.ok data)).state.chartCache =
        evictIfNeeded (insertedCache s cryptoId tf doneAt data)) ∧
    ((insertedCache s cryptoId tf doneAt data).length ≤
        MAX_CHART_CACHE_SIZE →
      evictIfNeeded (insertedCache s cryptoId tf doneAt data) =
        insertedCache s cryptoId tf doneAt data) ∧
    (MAX_CHART_CACHE_SIZE <
        (insertedCache s cryptoId tf doneAt data).length →
      (evictIfNeeded (insertedCache s cryptoId tf doneAt data)).length =
        MAX_CHART_CACHE_SIZE ∧
      ∀ r ∈ insertedCache s cryptoId tf doneAt data,
        r ∉ evictIfNeeded (insertedCache s cryptoId tf doneAt data) →
        ∀ k ∈ evictIfNeeded (insertedCache s cryptoId tf doneAt data),
          r.2.fetchedAt ≤ k.2.fetchedAt) ∧
    ((insertedCache s cryptoId tf doneAt data).length =
        MAX_CHART_CACHE_SIZE + 1 →
      ∀ r ∈ insertedCache s cryptoId tf doneAt data,
        r ∉ evictIfNeeded (insertedCache s cryptoId tf doneAt data) →
        (∀ p ∈ insertedCache s cryptoId tf doneAt data,
          p ∉ evictIfNeeded (insertedCache s cryptoId tf doneAt data) →
          p = r) ∧
        (List.Pairwise (fun a b => a.2.fetchedAt ≠ b.2.fetchedAt)
            (insertedCache s cryptoId tf doneAt data) →
          ∀ p ∈ insertedCache s cryptoId tf doneAt data, p ≠ r →
            r.2.fetchedAt < p.2.fetchedAt)) ∧
    (∀ c, s.chartCache.lookup (cryptoId ++ "-" ++ timeframeKey tf) = some c →
      c.timeframe = tf → now - c.fetchedAt < CHART_CACHE_DURATION →
      (getChartData s cryptoId tf now doneAt (.ok data)).state = s) := by
  have hik : ((insertedCache s cryptoId tf doneAt data).map Prod.fst).Nodup :=
    jsSet_keys_nodup s.chartCache (cryptoId ++ "-" ++ timeframeKey tf)
      ⟨data.prices, data.volumes, tf, doneAt⟩ hkeys
  refine ⟨?_, ?_, ?_, ?_, ?_⟩
  · intro hmiss
    rw [getChartData_miss s cryptoId tf now doneAt _ hmiss]
    rfl
  · intro hle
    exact evictIfNeeded_eq_self _ hle
  · intro hgt
    have hc := evict_core (insertedCache s cryptoId tf doneAt data) hik hgt
    exact ⟨hc.1, hc.2.1⟩
  · intro h21 r hr hnr
    have hgt : MAX_CHART_CACHE_SIZE <
        (insertedCache s cryptoId tf doneAt data).length := by omega
    have hc := evict_core (insertedCache s cryptoId tf doneAt data) hik hgt
    refine ⟨fun p hp hnp => hc.2.2 h21 r hr hnr p hp hnp, ?_⟩
    intro hpw p hp hpr
    by_cases hpe : p ∈ evictIfNeeded (insertedCache s cryptoId tf doneAt data)
    · have hle := hc.2.1 r hr hnr p hpe
      have hsym : Symmetric (fun a b : String × ChartCache =>
          a.2.fetchedAt ≠ b.2.fetchedAt) := by
        intro a b hab
        exact fun he => hab he.symm
      have hne : r.2.fetchedAt ≠ p.2.fetchedAt :=
        List.Pairwise.forall hsym hpw hr hp (Ne.symm hpr)
      omega
    · exact absurd (hc.2.2 h21 r hr hnr p hp hpe) hpr
  · intro c hcc htf hfresh
    rw [getChartData_fresh s cryptoId tf now doneAt _ c hcc htf hfresh]

/-- Witness for getChartData_eviction_spec: inserting into an empty cache
stays within capacity (no eviction), and the success path stores exactly the
upserted, eviction-checked cache. -/
theorem getChartData_eviction_spec_witness :
    evictIfNeeded (insertedCache ⟨[], []⟩ "bitcoin" .h24 0 ⟨[], []⟩) =
      insertedCache ⟨[], []⟩ "bitcoin" .h24 0 ⟨[], []⟩ ∧
    (getChartData ⟨[], []⟩ "bitcoin" .h24 5 5
        (.ok ⟨[], []⟩)).state.chartCache =
      evictIfNeeded (insertedCache ⟨[], []⟩ "bitcoin" .h24 5 ⟨[], []⟩) := by
  constructor
  · exact (getChartData_eviction_spec ⟨[], []⟩ "bitcoin" .h24 0 0 ⟨[], []⟩
      (by simp)).2.1 (by decide)
  · exact (getChartData_eviction_spec ⟨[], []⟩ "bitcoin" .h24 5 5 ⟨[], []⟩
      (by simp)).1 (by intro c hc; simp at hc)

end ChartStore
